import Mathlib

/-!
# Chat broker: shared registry, supervisor, handler and broadcaster

A shallow embedding of `ChatServer.cpp` and of the registration section of
`ChatClient.cpp`.

* Bytes (`char`) are natural numbers; `'\0'` is 0, `'\n'` is 10, `':'` is 58,
  `' '` is 32.
* The arrays of `SharedData` are functions from the index.
* Every lock operation and every `write` call of the broker is recorded in an
  event trace, in program order of the executing thread.
* Results of system calls (`open`, `write`) are inputs of the model. A `write`
  either returns the byte count, or returns `-1`, or finds no reader on the
  FIFO: then `SIGPIPE` is raised, and since the server never changes the
  disposition of that signal the process is terminated inside `write`.
* The byte stream read by a handler is a finite list followed by end of stream
  (`read` returning `r <= 0`).
-/

namespace Chat

/-! ## Constants and data model -/

/-- The constant `MAX_USERS` of both programs. -/
def MAX_USERS : Nat := 10

/-- The constant `MSG_SIZE` of both programs. -/
def MSG_SIZE : Nat := 256

/-- Char values of a string literal. -/
def bytes (s : String) : List Nat := s.toList.map Char.toNat

/-- The struct `SharedData`: `int active_users[MAX_USERS]` and
`char users[MAX_USERS][MSG_SIZE]`, each array as a function of the index. -/
structure SharedData where
  active_users : Nat → Int
  users : Nat → Nat → Nat

/-- Array assignment `a[i] = v`. -/
def assign {α : Type} (a : Nat → α) (i : Nat) (v : α) : Nat → α :=
  fun j => if j = i then v else a j

/-- The C string held in a row `users[i]`: the bytes before the first `'\0'`.
The scan is bounded by the row size; every row the programs produce has
`users[i][MSG_SIZE - 1] = 0` (see `Reachable_row_terminated`), so on those the
bounded scan is the C string. Used for `strlen(users[i])` and for the
conversion `std::string sender = users[i]`. -/
def c_str (row : Nat → Nat) : List Nat :=
  ((List.range MSG_SIZE).map row).takeWhile (fun c => c != 0)

/-- The call `strncpy(dest, src.c_str(), n)`: exactly `n` bytes of `dest` are
written, the bytes of `src` before its first `'\0'` and then `'\0'` padding. -/
def strncpy (dest : Nat → Nat) (src : List Nat) (n : Nat) : Nat → Nat :=
  fun k => if k < n then (src.takeWhile (fun c => c != 0)).getD k 0 else dest k

/-- The map `s2c_fds` together with the shared memory: the state the broker
threads work on. -/
structure Broker where
  shm : SharedData
  s2c_fds : Nat → Option Int

/-- What a call `write(fd, data, size)` on the write end of a FIFO does: it
returns the byte count (`wrote`), it returns `-1` (`failed`), or the FIFO has
no reader and `SIGPIPE` terminates the server (`sigpipe`); `ChatServer.cpp`
installs no handler for the signal and does not ignore it. -/
inductive WriteResult where
  | wrote : WriteResult
  | failed : WriteResult
  | sigpipe : WriteResult
deriving DecidableEq

/-- The result of a `write` that returns: the byte count or `-1`. -/
def returned (ok : Bool) : WriteResult :=
  match ok with
  | true => WriteResult.wrote
  | false => WriteResult.failed

/-- Observable steps of a broker thread. `sem_wait`/`sem_post` are the registry
semaphore, `lock_fds`/`unlock_fds` the scope of a `lock_guard` on `fds_mutex`,
`write user fd data ok` one call `write(fd, data, size)` for slot `user` that
returned, and whether it returned something else than `-1`;
`sigpipe user fd data` one call `write(fd, data, size)` for slot `user` in which
the process was terminated by `SIGPIPE`. -/
inductive Event where
  | sem_wait : Event
  | sem_post : Event
  | lock_fds : Event
  | unlock_fds : Event
  | write : Nat → Int → List Nat → Bool → Event
  | sigpipe : Nat → Int → List Nat → Event
deriving DecidableEq

/-- Whether the process was terminated in the course of a trace. -/
def killed : List Event → Bool
  | [] => false
  | Event.sigpipe _ _ _ :: _ => true
  | _ :: rest => killed rest

/-! ## ChatClient.cpp, `main`, lines 62-98: registration -/

/-- Line 63: an empty user name becomes `"anon"`. -/
def username_or_anon (line : List Nat) : List Nat :=
  if line.isEmpty then bytes "anon" else line

/-- Lines 82-98 of the client: under the semaphore, take the first index with
`active_users[i] == 0`, copy the user name into `users[i]` and terminate the
row; `none` is the exit with "Max users reached." -/
def client_reserve (shm : SharedData) (username : List Nat) : Option Nat × SharedData :=
  match (List.range MAX_USERS).find? (fun i => shm.active_users i == 0) with
  | some user_id =>
    (some user_id,
      { shm with
        users := assign shm.users user_id
          (assign (strncpy (shm.users user_id) username (MSG_SIZE - 1)) (MSG_SIZE - 1) 0) })
  | none => (none, shm)

/-! ## ChatServer.cpp, `main` -/

/-- State of the shared memory after lines 155-182: the object is created
afresh and zero filled by `ftruncate`, then every `active_users[i]` and every
`users[i][0]` is set to 0. -/
def shm_init : SharedData :=
  { active_users := fun _ => 0, users := fun _ _ => 0 }

/-- The broker at start: initial shared memory and an empty `s2c_fds`. -/
def broker_init : Broker :=
  { shm := shm_init, s2c_fds := fun _ => none }

/-- One iteration of the loop at lines 187-205: under the semaphore, the first
index with `active_users[i] == 0 && strlen(users[i]) > 0` gets
`active_users[i] = 1` and is returned (a handler thread is then started for
it); `none` stands for `user_id == -1`. -/
def server_poll (shm : SharedData) : Option Nat × SharedData × List Event :=
  match (List.range MAX_USERS).find?
      (fun i => shm.active_users i == 0 && decide (0 < (c_str (shm.users i)).length)) with
  | some user_id =>
    (some user_id, { shm with active_users := assign shm.active_users user_id 1 },
      [Event.sem_wait, Event.sem_post])
  | none => (none, shm, [Event.sem_wait, Event.sem_post])

/-! ## ChatServer.cpp, `broadcast_message` -/

/-- Lines 38-39: `send_data` is the message, with `'\n'` appended unless it
already ends in one. `back()` of an empty string is undefined: `none`. -/
def send_data (message : List Nat) : Option (List Nat) :=
  match message.getLast? with
  | none => none
  | some c => if c != 10 then some (message ++ [10]) else some message

/-- The loop at lines 43-63 over the indices still to visit. `write_res i` is
what the write to slot `i` does. After a write that returns, with the byte
count or with `-1`, the loop goes on with the next index; a write that raises
`SIGPIPE` terminates the process, and nothing follows it. -/
def broadcast_loop (send : List Nat) (sender_id : Nat) (shm : SharedData)
    (fds : Nat → Option Int) (write_res : Nat → WriteResult) : List Nat → List Event
  | [] => []
  | i :: rest =>
    if !(shm.active_users i == 1) || i == sender_id then
      [Event.sem_wait, Event.sem_post] ++
        broadcast_loop send sender_id shm fds write_res rest
    else
      match fds i with
      | none =>
        [Event.sem_wait, Event.sem_post] ++
          broadcast_loop send sender_id shm fds write_res rest
      | some fd =>
        match write_res i with
        | WriteResult.wrote =>
          [Event.sem_wait, Event.sem_post, Event.write i fd send true] ++
            broadcast_loop send sender_id shm fds write_res rest
        | WriteResult.failed =>
          [Event.sem_wait, Event.sem_post, Event.write i fd send false] ++
            broadcast_loop send sender_id shm fds write_res rest
        | WriteResult.sigpipe =>
          [Event.sem_wait, Event.sem_post, Event.sigpipe i fd send]

/-- The function `broadcast_message`, lines 37-64: the `lock_guard` on
`fds_mutex` is taken before the loop and released at the end of the function,
which is not reached when the process is terminated in the loop. -/
def broadcast_message (message : List Nat) (sender_id : Nat) (shm : SharedData)
    (fds : Nat → Option Int) (write_res : Nat → WriteResult) : Option (List Event) :=
  match send_data message with
  | none => none
  | some send =>
    if killed (broadcast_loop send sender_id shm fds write_res (List.range MAX_USERS)) then
      some ([Event.lock_fds] ++
        broadcast_loop send sender_id shm fds write_res (List.range MAX_USERS))
    else
      some ([Event.lock_fds] ++
        broadcast_loop send sender_id shm fds write_res (List.range MAX_USERS) ++
        [Event.unlock_fds])

/-! ## ChatServer.cpp, `handle_client` -/

/-- The call `buf.resize(n)` of `std::string`. -/
def resize (buf : List Nat) (n : Nat) : List Nat :=
  buf.take n ++ List.replicate (n - buf.length) 0

/-- Lines 147-148: `buf.push_back(ch)` and then
`if (buf.size() >= MSG_SIZE - 1) buf.resize(MSG_SIZE - 2)`. -/
def push_char (buf : List Nat) (ch : Nat) : List Nat :=
  if (buf ++ [ch]).length ≥ MSG_SIZE - 1 then resize (buf ++ [ch]) (MSG_SIZE - 2)
  else buf ++ [ch]

/-- Lines 137-144: on `'\n'` the sender name is read under the semaphore and
`sender + ": " + buf` is handed to `broadcast_message`. -/
def on_line (user_id : Nat) (write_res : Nat → WriteResult) (buf : List Nat) (b : Broker) :
    Option (List Event) :=
  (broadcast_message (c_str (b.shm.users user_id) ++ [58, 32] ++ buf) user_id
      b.shm b.s2c_fds write_res).map
    (fun es => [Event.sem_wait, Event.sem_post] ++ es)

/-- Lines 117-134: on `r <= 0` the entry of `s2c_fds` is erased under
`fds_mutex`, then `active_users[user_id] = 0` and `users[user_id][0] = '\0'`
are written under the semaphore. -/
def disconnect (user_id : Nat) (b : Broker) : Broker × List Event :=
  ({ shm :=
      { active_users := assign b.shm.active_users user_id 0
        users := assign b.shm.users user_id (assign (b.shm.users user_id) 0 0) }
     s2c_fds := assign b.s2c_fds user_id none },
    [Event.lock_fds, Event.unlock_fds, Event.sem_wait, Event.sem_post])

/-- The read loop at lines 113-150 on the bytes still to come, with the
current `buf`. `write_res n i` is what the write to slot `i` during the `n`-th
broadcast from now does. When the process is terminated in a broadcast the
loop ends there, with the state as it is. The result is `none` only if
`broadcast_message` is undefined. -/
def handle_client_loop (user_id : Nat) :
    (Nat → Nat → WriteResult) → List Nat → List Nat → Broker →
      Option (Broker × List Event)
  | _, [], _, b => some (disconnect user_id b)
  | write_res, ch :: rest, buf, b =>
    if ch = 10 then
      (on_line user_id (write_res 0) buf b).bind fun es =>
        if killed es then some (b, es)
        else
          (handle_client_loop user_id (fun n => write_res (n + 1)) rest [] b).map
            fun r => (r.1, es ++ r.2)
    else
      handle_client_loop user_id write_res rest (push_char buf ch) b

/-- Lines 79-85 and 96-103: the exit of `handle_client` when an `open` fails:
`active_users[user_id] = 0` under the semaphore, nothing else. -/
def handshake_failed (user_id : Nat) (b : Broker) : Broker × List Event :=
  ({ b with shm := { b.shm with active_users := assign b.shm.active_users user_id 0 } },
    [Event.sem_wait, Event.sem_post])

/-- Lines 105-109: the descriptor is stored in `s2c_fds` under `fds_mutex`. -/
def store_fd (user_id : Nat) (fd : Int) (b : Broker) : Broker × List Event :=
  ({ b with s2c_fds := assign b.s2c_fds user_id (some fd) },
    [Event.lock_fds, Event.unlock_fds])

/-- The function `handle_client`, lines 66-151. `in_fd` and `out_fd` are what the
two `open` calls return (`none` for `-1`); the waits of lines 71-75 and 88-92
only delay the calls. -/
def handle_client (user_id : Nat) (in_fd out_fd : Option Int)
    (write_res : Nat → Nat → WriteResult) (input : List Nat) (b : Broker) :
    Option (Broker × List Event) :=
  match in_fd with
  | none => some (handshake_failed user_id b)
  | some _ =>
    match out_fd with
    | none => some (handshake_failed user_id b)
    | some fd =>
      (handle_client_loop user_id write_res input [] (store_fd user_id fd b).1).map
        fun r => (r.1, (store_fd user_id fd b).2 ++ r.2)

/-! ## The system: client registrations and broker threads interleaved -/

/-- What the handler thread of a slot is doing: no thread, a thread before
line 105 (waiting for and opening the pipes), or a thread in the read loop. -/
inductive Phase where
  | idle : Phase
  | connecting : Phase
  | running : Phase
deriving DecidableEq

/-- Broker state plus the phase of the handler thread of every slot. -/
structure Sys where
  broker : Broker
  handler : Nat → Phase

/-- The atomic steps that change the shared state. -/
inductive Action where
  | reserve : List Nat → Action
  | poll : Action
  | handshake : Nat → Option Int → Option Int → Action
  | closure : Nat → Action

/-- State at the start of the server loop. -/
def sys_init : Sys :=
  { broker := broker_init, handler := fun _ => Phase.idle }

/-- One step. `reserve` is the registration section of a client, `poll` one
iteration of the server loop (which starts a handler thread for the slot it
picked), `handshake i in_fd out_fd` the two `open` calls of the handler thread
of slot `i`, `closure i` its read returning `r <= 0`. A step of a thread that
does not exist changes nothing. -/
def step (s : Sys) : Action → Sys
  | Action.reserve username =>
    { s with broker := { s.broker with shm := (client_reserve s.broker.shm username).2 } }
  | Action.poll =>
    match (server_poll s.broker.shm).1 with
    | some i =>
      { broker := { s.broker with shm := (server_poll s.broker.shm).2.1 }
        handler := assign s.handler i Phase.connecting }
    | none => s
  | Action.handshake i in_fd out_fd =>
    if s.handler i = Phase.connecting then
      match in_fd, out_fd with
      | some _, some fd =>
        { broker := (store_fd i fd s.broker).1, handler := assign s.handler i Phase.running }
      | _, _ =>
        { broker := (handshake_failed i s.broker).1, handler := assign s.handler i Phase.idle }
    else s
  | Action.closure i =>
    if s.handler i = Phase.running then
      { broker := (disconnect i s.broker).1, handler := assign s.handler i Phase.idle }
    else s

/-- The state after a sequence of steps from the start. -/
def run (acts : List Action) : Sys := acts.foldl step sys_init

/-- The states the system can be in. -/
def Reachable (s : Sys) : Prop := ∃ acts, s = run acts

/-- What holds of the registry in every state the system can be in: the flags
are 0 or 1, an active slot has a name, a slot with a handler thread is active,
and every row ends in `'\0'`. -/
def RegistryInv (s : Sys) : Prop :=
  (∀ i, s.broker.shm.active_users i = 0 ∨ s.broker.shm.active_users i = 1) ∧
  (∀ i, s.broker.shm.active_users i = 1 → s.broker.shm.users i 0 ≠ 0) ∧
  (∀ i, s.handler i ≠ Phase.idle → s.broker.shm.active_users i = 1) ∧
  (∀ i, s.broker.shm.users i (MSG_SIZE - 1) = 0)

/-- Results of successive registrations, one client after the other. -/
def reservations : SharedData → List (List Nat) → List (Option Nat)
  | _, [] => []
  | shm, name :: rest =>
    (client_reserve shm name).1 :: reservations (client_reserve shm name).2 rest

/-! ## Reading traces -/

/-- The `write` calls of a trace that returned, in order. -/
def writes_of : List Event → List Event
  | [] => []
  | Event.write i fd d ok :: rest => Event.write i fd d ok :: writes_of rest
  | _ :: rest => writes_of rest

/-- The byte strings written for slot `r`, in order. -/
def writes_to (r : Nat) : List Event → List (List Nat)
  | [] => []
  | Event.write i _ d _ :: rest => if i = r then d :: writes_to r rest else writes_to r rest
  | _ :: rest => writes_to r rest

/-- The slots `broadcast_message` writes to: active, not the sender, with an
entry in `s2c_fds`. -/
def recipients (sender_id : Nat) (shm : SharedData) (fds : Nat → Option Int) : List Nat :=
  (List.range MAX_USERS).filter
    (fun i => shm.active_users i == 1 && i != sender_id && (fds i).isSome)

/-- The `write` calls of the handler of a sender named `name` that the message
shape "`<displayName>: <original line>\n`" asks for, for a sequence of inbound
lines: line by line, one call per recipient with the name, `": "`, the line
(cut to `MSG_SIZE - 2` bytes) and one `'\n'`. `write_ok n i` is whether the
write to slot `i` for the `n`-th line returned something else than `-1`. -/
def line_writes (name : List Nat) (recips : List Nat) (fds : Nat → Option Int) :
    (Nat → Nat → Bool) → List (List Nat) → List Event
  | _, [] => []
  | write_ok, l :: rest =>
    recips.filterMap (fun i => (fds i).map (fun fd =>
      Event.write i fd (name ++ bytes ": " ++ l.take (MSG_SIZE - 2) ++ bytes "\n")
        (write_ok 0 i))) ++
    line_writes name recips fds (fun n => write_ok (n + 1)) rest

/-- Lock discipline "never nested": walking the trace with the current holding
of the semaphore and of `fds_mutex`, no lock is acquired while the other one
is held. -/
def never_nested : Bool → Bool → List Event → Bool
  | _, _, [] => true
  | _, fds, Event.sem_wait :: rest => !fds && never_nested true fds rest
  | _, fds, Event.sem_post :: rest => never_nested false fds rest
  | sem, _, Event.lock_fds :: rest => !sem && never_nested sem true rest
  | sem, _, Event.unlock_fds :: rest => never_nested sem false rest
  | sem, fds, Event.write _ _ _ _ :: rest => never_nested sem fds rest
  | sem, fds, Event.sigpipe _ _ _ :: rest => never_nested sem fds rest

/-- Lock discipline "table lock covers the lookup only": no registry access
and no `write` happens while `fds_mutex` is held. -/
def fds_lookup_only : Bool → List Event → Bool
  | _, [] => true
  | fds, Event.sem_wait :: rest => !fds && fds_lookup_only fds rest
  | fds, Event.sem_post :: rest => fds_lookup_only fds rest
  | _, Event.lock_fds :: rest => fds_lookup_only true rest
  | _, Event.unlock_fds :: rest => fds_lookup_only false rest
  | fds, Event.write _ _ _ _ :: rest => !fds && fds_lookup_only fds rest
  | fds, Event.sigpipe _ _ _ :: rest => !fds && fds_lookup_only fds rest

/-- Lock order "table lock first": `fds_mutex` is never acquired while the
semaphore is held, the semaphore is never held during a `write`, and both
locks are free at the end. -/
def fds_before_sem : Bool → Bool → List Event → Bool
  | sem, fds, [] => !sem && !fds
  | _, fds, Event.sem_wait :: rest => fds_before_sem true fds rest
  | _, fds, Event.sem_post :: rest => fds_before_sem false fds rest
  | sem, _, Event.lock_fds :: rest => !sem && fds_before_sem sem true rest
  | sem, _, Event.unlock_fds :: rest => fds_before_sem sem false rest
  | sem, fds, Event.write _ _ _ _ :: rest => !sem && fds_before_sem sem fds rest
  | sem, fds, Event.sigpipe _ _ _ :: rest => !sem && fds_before_sem sem fds rest

/-- Every registry access and every `write` of the trace happens while
`fds_mutex` is held. -/
def all_under_fds : Bool → List Event → Bool
  | _, [] => true
  | fds, Event.sem_wait :: rest => fds && all_under_fds fds rest
  | fds, Event.sem_post :: rest => fds && all_under_fds fds rest
  | _, Event.lock_fds :: rest => all_under_fds true rest
  | _, Event.unlock_fds :: rest => all_under_fds false rest
  | fds, Event.write _ _ _ _ :: rest => fds && all_under_fds fds rest
  | fds, Event.sigpipe _ _ _ :: rest => fds && all_under_fds fds rest

/-- The byte stream a sender produces for a sequence of lines: every line
followed by `'\n'`. -/
def stream_of_lines : List (List Nat) → List Nat
  | [] => []
  | l :: rest => l ++ [10] ++ stream_of_lines rest

/-! ## Concrete scenarios -/

/-- Ten clients register, each picked up by a poll of the server before the
next one registers. -/
def ten_polled : Sys :=
  run ((List.replicate 10 [Action.reserve (bytes "u"), Action.poll]).flatten)

/-- Alice has registered and no poll of the server has happened yet. -/
def alice_reserved : SharedData := (client_reserve shm_init (bytes "alice")).2

/-- Alice has registered and the server has picked her slot up; her handler
thread has not yet opened the pipes. -/
def alice_polled : Sys := run [Action.reserve (bytes "alice"), Action.poll]

/-- Alice and bob are connected; alice leaves, carol registers (slot 0, not
yet picked up by the server). Bob is still connected in slot 1. -/
def carol_pending : Sys :=
  run [Action.reserve (bytes "alice"), Action.poll, Action.handshake 0 (some 3) (some 4),
       Action.reserve (bytes "bob"), Action.poll, Action.handshake 1 (some 5) (some 6),
       Action.closure 0, Action.reserve (bytes "carol")]

/-- Alice, bob and carol register one after the other, each picked up and
connected before the next one registers (descriptors 4, 6 and 8). -/
def alice_bob_carol : Sys :=
  run [Action.reserve (bytes "alice"), Action.poll, Action.handshake 0 (some 3) (some 4),
       Action.reserve (bytes "bob"), Action.poll, Action.handshake 1 (some 5) (some 6),
       Action.reserve (bytes "carol"), Action.poll, Action.handshake 2 (some 7) (some 8)]

/-- Alice registers, is picked up and connected (descriptor 4); then bob
registers, is picked up and connected (descriptor 6). -/
def alice_bob : Sys :=
  run [Action.reserve (bytes "alice"), Action.poll, Action.handshake 0 (some 3) (some 4),
       Action.reserve (bytes "bob"), Action.poll, Action.handshake 1 (some 5) (some 6)]

/-! ## Scanning for the first index -/

theorem find_range_none {p : Nat → Bool} {n : Nat}
    (h : (List.range n).find? p = none) : ∀ j, j < n → p j = false := by
  intro j hj
  have hall := List.find?_eq_none.mp h j (List.mem_range.mpr hj)
  simpa using hall

theorem find_range_some {p : Nat → Bool} {n i : Nat}
    (h : (List.range n).find? p = some i) :
    i < n ∧ p i = true ∧ ∀ j, j < i → p j = false := by
  induction n with
  | zero => simp at h
  | succ n ih =>
    rw [List.range_succ, List.find?_append] at h
    cases hfind : (List.range n).find? p with
    | some k =>
      rw [hfind] at h
      simp only [Option.or_some] at h
      have hk := ih (by rw [hfind, h])
      exact ⟨Nat.lt_succ_of_lt hk.1, hk.2⟩
    | none =>
      rw [hfind] at h
      simp only [Option.none_or] at h
      by_cases hp : p n = true
      · simp only [List.find?_cons, hp] at h
        have hin : n = i := by simpa using h
        subst hin
        exact ⟨Nat.lt_succ_self _, hp, fun j hj => find_range_none hfind j hj⟩
      · simp [List.find?_cons, hp] at h

theorem find_range_of_first {p : Nat → Bool} {n i : Nat} (hi : i < n) (hp : p i = true)
    (hlow : ∀ j, j < i → p j = false) : (List.range n).find? p = some i := by
  cases hfind : (List.range n).find? p with
  | none =>
    have := find_range_none hfind i hi
    rw [hp] at this
    cases this
  | some k =>
    obtain ⟨_, hpk, hklow⟩ := find_range_some hfind
    rcases Nat.lt_trichotomy k i with hlt | heq | hgt
    · have := hlow k hlt
      rw [hpk] at this
      cases this
    · rw [heq]
    · have := hklow i hgt
      rw [hp] at this
      cases this

/-! ## Rows and C strings -/

theorem takeWhile_padded (s : List Nat) (hs : ∀ c ∈ s, c ≠ 0) (n : Nat) :
    (((List.range n).map (fun k => s.getD k 0)) ++ [0]).takeWhile (fun c => c != 0)
      = s.take n := by
  induction n generalizing s with
  | zero => simp
  | succ n ih =>
    rw [List.range_succ_eq_map, List.map_cons, List.map_map]
    cases s with
    | nil => simp
    | cons a t =>
      have ha : a ≠ 0 := hs a (List.mem_cons_self _ _)
      have ht : ∀ c ∈ t, c ≠ 0 := fun c hc => hs c (List.mem_cons_of_mem _ hc)
      have hfun : ((fun k => (a :: t).getD k 0) ∘ Nat.succ) = (fun k => t.getD k 0) := by
        funext k
        simp
      rw [hfun]
      simp only [List.getD_cons_zero, List.cons_append, List.take_succ_cons]
      rw [List.takeWhile_cons_of_pos (by simpa using ha), ih t ht]

theorem map_reserved_row (dest : Nat → Nat) (src : List Nat) (n : Nat) :
    (List.range (n + 1)).map (assign (strncpy dest src n) n 0)
      = (List.range n).map (fun k => (src.takeWhile (fun c => c != 0)).getD k 0) ++ [0] := by
  rw [List.range_succ, List.map_append]
  have h1 : (List.range n).map (assign (strncpy dest src n) n 0)
      = (List.range n).map (fun k => (src.takeWhile (fun c => c != 0)).getD k 0) := by
    apply List.map_congr_left
    intro k hk
    have hk2 : k < n := List.mem_range.mp hk
    simp [assign, strncpy, Nat.ne_of_lt hk2, hk2]
  rw [h1]
  simp [assign]

/-- The name read back from a row written by lines 88-89 of the client is the
user name up to its first `'\0'`, cut to `MSG_SIZE - 1` bytes, whatever the row
held before. -/
theorem c_str_reserved_row (dest : Nat → Nat) (src : List Nat) :
    c_str (assign (strncpy dest src (MSG_SIZE - 1)) (MSG_SIZE - 1) 0)
      = (src.takeWhile (fun c => c != 0)).take (MSG_SIZE - 1) := by
  have hs : ∀ c ∈ src.takeWhile (fun c => c != 0), c ≠ 0 := by
    intro c hc
    have := List.mem_takeWhile_imp hc
    simpa using this
  have h := map_reserved_row dest src 255
  show (((List.range (255 + 1)).map (assign (strncpy dest src 255) 255 0)).takeWhile
      (fun c => c != 0)) = (src.takeWhile (fun c => c != 0)).take 255
  rw [h]
  exact takeWhile_padded _ hs _

/-- Every byte of a row written by lines 88-89 of the client is determined by the
user name alone (the cut name, then zeros): nothing of the old row remains. -/
theorem reserved_row_bytes (dest : Nat → Nat) (src : List Nat) (k : Nat) (hk : k < MSG_SIZE) :
    assign (strncpy dest src (MSG_SIZE - 1)) (MSG_SIZE - 1) 0 k
      = ((src.takeWhile (fun c => c != 0)).take (MSG_SIZE - 1)).getD k 0 := by
  have h256 : MSG_SIZE = 256 := rfl
  by_cases h : k = MSG_SIZE - 1
  · have hlen : ((src.takeWhile (fun c => c != 0)).take (MSG_SIZE - 1)).length ≤ k := by
      rw [h, List.length_take]
      exact Nat.min_le_left _ _
    rw [List.getD_eq_default _ _ hlen]
    simp [assign, h]
  · have hk2 : k < MSG_SIZE - 1 := by
      rw [h256] at hk h ⊢
      omega
    simp [assign, strncpy, h, hk2, List.getD_eq_getElem?_getD, List.getElem?_take]

theorem c_str_eq_nil_iff (row : Nat → Nat) : c_str row = [] ↔ row 0 = 0 := by
  show ((List.range (255 + 1)).map row).takeWhile (fun c => c != 0) = [] ↔ row 0 = 0
  rw [List.range_succ_eq_map, List.map_cons]
  by_cases h : row 0 = 0
  · simp [h]
  · simp [h]

/-! ## What the registration of the client does -/

/-- The registration returns the lowest index with `active_users[i] == 0`. -/
theorem client_reserve_some {shm : SharedData} {username : List Nat} {i : Nat}
    (h : (client_reserve shm username).1 = some i) :
    i < MAX_USERS ∧ shm.active_users i = 0 ∧ ∀ j, j < i → shm.active_users j ≠ 0 := by
  unfold client_reserve at h
  cases hfind : (List.range MAX_USERS).find? (fun i => shm.active_users i == 0) with
  | none => simp [hfind] at h
  | some k =>
    simp only [hfind, Option.some.injEq] at h
    subst h
    obtain ⟨h1, h2, h3⟩ := find_range_some hfind
    refine ⟨h1, by simpa using h2, fun j hj => ?_⟩
    have := h3 j hj
    simpa using this

/-- The registration fails exactly when every `active_users[i]` is nonzero. -/
theorem client_reserve_none_iff (shm : SharedData) (username : List Nat) :
    (client_reserve shm username).1 = none ↔ ∀ j, j < MAX_USERS → shm.active_users j ≠ 0 := by
  unfold client_reserve
  cases hfind : (List.range MAX_USERS).find? (fun i => shm.active_users i == 0) with
  | none =>
    simp only [true_iff]
    intro j hj
    have := find_range_none hfind j hj
    simpa using this
  | some k =>
    obtain ⟨h1, h2, _⟩ := find_range_some hfind
    simp only [false_iff, not_forall, reduceCtorEq]
    exact ⟨k, h1, by simpa using h2⟩

/-- The registration leaves `active_users` alone. -/
theorem client_reserve_active (shm : SharedData) (username : List Nat) :
    (client_reserve shm username).2.active_users = shm.active_users := by
  unfold client_reserve
  cases (List.range MAX_USERS).find? (fun i => shm.active_users i == 0) <;> rfl

/-- The registration touches only rows with `active_users[i] == 0`. -/
theorem client_reserve_users_of_active (shm : SharedData) (username : List Nat) (i : Nat)
    (h : shm.active_users i ≠ 0) :
    (client_reserve shm username).2.users i = shm.users i := by
  unfold client_reserve
  cases hfind : (List.range MAX_USERS).find? (fun i => shm.active_users i == 0) with
  | none => rfl
  | some k =>
    obtain ⟨_, h2, _⟩ := find_range_some hfind
    have hk : shm.active_users k = 0 := by simpa using h2
    have hne : i ≠ k := by
      intro heq
      rw [heq] at h
      exact h hk
    simp [assign, hne]

/-- The row of the slot a registration returned. -/
theorem client_reserve_row {shm : SharedData} {username : List Nat} {i : Nat}
    (h : (client_reserve shm username).1 = some i) :
    (client_reserve shm username).2.users i
      = assign (strncpy (shm.users i) username (MSG_SIZE - 1)) (MSG_SIZE - 1) 0 := by
  unfold client_reserve at h ⊢
  cases hfind : (List.range MAX_USERS).find? (fun i => shm.active_users i == 0) with
  | none => simp [hfind] at h
  | some k =>
    simp only [hfind, Option.some.injEq] at h
    subst h
    simp [assign]

/-- The rows of the other slots are left alone by a registration. -/
theorem client_reserve_other_rows {shm : SharedData} {username : List Nat} {i : Nat}
    (h : (client_reserve shm username).1 = some i) (j : Nat) (hj : j ≠ i) :
    (client_reserve shm username).2.users j = shm.users j := by
  unfold client_reserve at h ⊢
  cases hfind : (List.range MAX_USERS).find? (fun i => shm.active_users i == 0) with
  | none => simp [hfind] at h
  | some k =>
    simp only [hfind, Option.some.injEq] at h
    subst h
    simp [assign, hj]

/-- A registration takes the lowest slot whose flag is 0 and leaves there the
user name up to its first `'\0'`, cut to `MSG_SIZE - 1` bytes. -/
theorem client_reserve_lowest_inactive (shm : SharedData) (username : List Nat) (i : Nat)
    (hi : i < MAX_USERS) (hfree : shm.active_users i = 0)
    (hlow : ∀ j, j < i → shm.active_users j ≠ 0) :
    (client_reserve shm username).1 = some i ∧
      c_str ((client_reserve shm username).2.users i)
        = (username.takeWhile (fun c => c != 0)).take (MSG_SIZE - 1) := by
  have hfind : (List.range MAX_USERS).find? (fun i => shm.active_users i == 0) = some i :=
    find_range_of_first hi (by simpa using hfree) (fun j hj => by simpa using hlow j hj)
  have hres : (client_reserve shm username).1 = some i := by
    unfold client_reserve
    rw [hfind]
  exact ⟨hres, by rw [client_reserve_row hres, c_str_reserved_row]⟩

/-- The name sent to the registration by the client is never the empty string. -/
theorem username_or_anon_ne_nil (line : List Nat) : username_or_anon line ≠ [] := by
  unfold username_or_anon
  cases line with
  | nil => decide
  | cons c rest => simp

/-- The teardown of a handler frees its slot: flag 0, empty name, no
descriptor. -/
theorem disconnect_frees_slot (user_id : Nat) (b : Broker) :
    (disconnect user_id b).1.shm.active_users user_id = 0 ∧
      c_str ((disconnect user_id b).1.shm.users user_id) = [] ∧
      (disconnect user_id b).1.s2c_fds user_id = none := by
  refine ⟨by simp [disconnect, assign], ?_, by simp [disconnect, assign]⟩
  rw [c_str_eq_nil_iff]
  simp [disconnect, assign]

/-- The exit on a failed `open` leaves every row of `users` as it was. -/
theorem handshake_failed_users (user_id : Nat) (b : Broker) :
    (handshake_failed user_id b).1.shm.users = b.shm.users := rfl

/-- Once ten registrations have each been picked up by the server, all flags
are 1 and the next registration fails. -/
theorem reservation_fails_when_all_active :
    (client_reserve ten_polled.broker.shm (bytes "v")).1 = none := by
  set_option maxRecDepth 4000 in decide

/-! ## The broadcaster -/

theorem writes_of_append (a b : List Event) : writes_of (a ++ b) = writes_of a ++ writes_of b := by
  induction a with
  | nil => rfl
  | cons e rest ih => cases e <;> simp [writes_of, ih]

theorem writes_to_append (r : Nat) (a b : List Event) :
    writes_to r (a ++ b) = writes_to r a ++ writes_to r b := by
  induction a with
  | nil => rfl
  | cons e rest ih =>
    cases e with
    | write i fd d ok =>
      by_cases h : i = r <;> simp [writes_to, ih, h]
    | _ => simp [writes_to, ih]

theorem killed_append (a b : List Event) : killed (a ++ b) = (killed a || killed b) := by
  induction a with
  | nil => rfl
  | cons e rest ih => cases e <;> simp [killed, ih]

theorem send_data_of_ne_nil (message : List Nat) (h : message ≠ []) :
    send_data message
      = some (if message.getLast? = some 10 then message else message ++ [10]) := by
  unfold send_data
  cases hlast : message.getLast? with
  | none => exact absurd (List.getLast?_eq_none_iff.mp hlast) h
  | some c =>
    by_cases hc : c = 10
    · simp [hc]
    · simp [hc]

/-- One round of the loop when the write returns (with the byte count or with
`-1`): the loop goes on with the next index. -/
theorem broadcast_loop_returned_cons (send : List Nat) (sender_id : Nat) (shm : SharedData)
    (fds : Nat → Option Int) (write_ok : Nat → Bool) (i : Nat) (rest : List Nat) :
    broadcast_loop send sender_id shm fds (fun j => returned (write_ok j)) (i :: rest)
      = [Event.sem_wait, Event.sem_post] ++
        (if !(shm.active_users i == 1) || i == sender_id then []
         else
          match fds i with
          | none => []
          | some fd => [Event.write i fd send (write_ok i)]) ++
        broadcast_loop send sender_id shm fds (fun j => returned (write_ok j)) rest := by
  by_cases hc : (!(shm.active_users i == 1) || i == sender_id) = true
  · simp only [broadcast_loop, hc, if_true, List.append_nil]
  · cases hfd : fds i with
    | none => simp only [broadcast_loop, hc, hfd, List.append_nil]; rfl
    | some fd =>
      cases hok : write_ok i with
      | true => simp only [broadcast_loop, hc, hfd, hok, returned]; rfl
      | false => simp only [broadcast_loop, hc, hfd, hok, returned]; rfl

/-- When every write returns, the process is not terminated in the loop. -/
theorem killed_broadcast_loop_returned (send : List Nat) (sender_id : Nat) (shm : SharedData)
    (fds : Nat → Option Int) (write_ok : Nat → Bool) (l : List Nat) :
    killed (broadcast_loop send sender_id shm fds (fun j => returned (write_ok j)) l)
      = false := by
  induction l with
  | nil => rfl
  | cons i rest ih =>
    rw [broadcast_loop_returned_cons, killed_append, killed_append, ih]
    by_cases hc : (!(shm.active_users i == 1) || i == sender_id) = true
    · simp [hc, killed]
    · cases hfd : fds i with
      | none => simp [hc, killed]
      | some fd => simp [hc, killed]

/-- The writes of the loop over any list of indices, when every write returns. -/
theorem writes_of_broadcast_loop (send : List Nat) (sender_id : Nat) (shm : SharedData)
    (fds : Nat → Option Int) (write_ok : Nat → Bool) (l : List Nat) :
    writes_of (broadcast_loop send sender_id shm fds (fun j => returned (write_ok j)) l)
      = (l.filter (fun i => shm.active_users i == 1 && i != sender_id && (fds i).isSome)).filterMap
          (fun i => (fds i).map (fun fd => Event.write i fd send (write_ok i))) := by
  induction l with
  | nil => rfl
  | cons i rest ih =>
    rw [broadcast_loop_returned_cons]
    simp only [writes_of_append, ih]
    by_cases hact : shm.active_users i = 1
    · by_cases hs : i = sender_id
      · simp [hact, hs, writes_of, List.filter_cons]
      · cases hfd : fds i with
        | none => simp [hact, hs, hfd, writes_of, List.filter_cons]
        | some fd => simp [hact, hs, hfd, writes_of, List.filter_cons]
    · simp [hact, writes_of, List.filter_cons]

theorem mem_recipients (sender_id : Nat) (shm : SharedData) (fds : Nat → Option Int) (i : Nat) :
    i ∈ recipients sender_id shm fds ↔
      i < MAX_USERS ∧ shm.active_users i = 1 ∧ i ≠ sender_id ∧ ∃ fd, fds i = some fd := by
  unfold recipients
  simp only [List.mem_filter, List.mem_range, Bool.and_eq_true, beq_iff_eq, bne_iff_ne, ne_eq,
    Option.isSome_iff_exists]
  tauto

theorem recipients_nodup (sender_id : Nat) (shm : SharedData) (fds : Nat → Option Int) :
    (recipients sender_id shm fds).Nodup :=
  (List.nodup_range _).filter _

/-- The trace of `broadcast_message` when every write returns. -/
theorem broadcast_message_of_ne_nil (message : List Nat) (sender_id : Nat) (shm : SharedData)
    (fds : Nat → Option Int) (write_ok : Nat → Bool) (h : message ≠ []) :
    broadcast_message message sender_id shm fds (fun j => returned (write_ok j))
      = some ([Event.lock_fds] ++
          broadcast_loop (if message.getLast? = some 10 then message else message ++ [10])
            sender_id shm fds (fun j => returned (write_ok j)) (List.range MAX_USERS) ++
          [Event.unlock_fds]) := by
  unfold broadcast_message
  rw [send_data_of_ne_nil message h]
  simp only [killed_broadcast_loop_returned, Bool.false_eq_true, if_false]

/-- `broadcast_message` has a result for every non-empty message, whatever the
writes do. -/
theorem broadcast_message_isSome (message : List Nat) (sender_id : Nat) (shm : SharedData)
    (fds : Nat → Option Int) (write_res : Nat → WriteResult) (h : message ≠ []) :
    (broadcast_message message sender_id shm fds write_res).isSome = true := by
  unfold broadcast_message
  rw [send_data_of_ne_nil message h]
  dsimp only
  generalize (if message.getLast? = some 10 then message else message ++ [10]) = send
  by_cases hk : killed (broadcast_loop send sender_id shm fds write_res (List.range MAX_USERS))
      = true
  · rw [if_pos hk]
    rfl
  · rw [if_neg hk]
    rfl

/-- When every `write` returns, with the byte count or with `-1`, the calls of
`broadcast_message` for a non-empty message are: one call with the terminated
message for each slot that is active, is not the sender and has an entry in
`s2c_fds`, in index order. -/
theorem broadcast_message_writes_returned (message : List Nat) (sender_id : Nat)
    (shm : SharedData) (fds : Nat → Option Int) (write_ok : Nat → Bool) (h : message ≠ []) :
    (broadcast_message message sender_id shm fds (fun j => returned (write_ok j))).map writes_of
        = some ((recipients sender_id shm fds).filterMap
            (fun i => (fds i).map (fun fd => Event.write i fd
              (if message.getLast? = some 10 then message else message ++ [10])
              (write_ok i)))) := by
  rw [broadcast_message_of_ne_nil message sender_id shm fds write_ok h]
  simp only [Option.map_some', writes_of_append, writes_of_broadcast_loop]
  simp [writes_of, recipients]

/-- C3 fails on the code. Alice (slot 0), bob (slot 1) and carol (slot 2) are
active and connected, and the FIFO of alice has lost its reader. Bob
broadcasts: alice and carol are the slots to write to; the write for alice
raises `SIGPIPE`, which terminates the server inside `write`, and the write for
carol is never made. The same in the handler of bob reading "hi\n": nothing is
written for carol and the handler does not get to its next read. -/
theorem broadcast_stops_at_sigpipe :
    recipients 1 alice_bob_carol.broker.shm alice_bob_carol.broker.s2c_fds = [0, 2] ∧
      broadcast_message (bytes "bob: hi") 1 alice_bob_carol.broker.shm
          alice_bob_carol.broker.s2c_fds
          (fun i => if i = 0 then WriteResult.sigpipe else WriteResult.wrote)
        = some [Event.lock_fds, Event.sem_wait, Event.sem_post,
            Event.sigpipe 0 4 (bytes "bob: hi\n")] ∧
      (handle_client_loop 1 (fun _ i => if i = 0 then WriteResult.sigpipe else WriteResult.wrote)
          (bytes "hi\n") [] alice_bob_carol.broker).map (fun r => (r.2, writes_to 2 r.2))
        = some ([Event.sem_wait, Event.sem_post, Event.lock_fds, Event.sem_wait,
            Event.sem_post, Event.sigpipe 0 4 (bytes "bob: hi\n")], []) := by
  decide

/-! ## The read loop of the handler -/

theorem push_char_eq (buf : List Nat) (ch : Nat) (h : buf.length ≤ MSG_SIZE - 2) :
    push_char buf ch = (buf ++ [ch]).take (MSG_SIZE - 2) := by
  have h256 : MSG_SIZE = 256 := rfl
  rw [h256] at h ⊢
  unfold push_char resize
  rw [h256]
  by_cases hfull : buf.length = 254
  · simp [hfull]
  · have hlt : buf.length < 254 := by omega
    have hno : ¬ ((buf ++ [ch]).length ≥ 256 - 1) := by
      simp only [List.length_append, List.length_singleton]
      omega
    rw [if_neg hno, List.take_of_length_le]
    simp only [List.length_append, List.length_singleton]
    omega

/-- The buffer after reading the bytes `pre` holds the first `MSG_SIZE - 2`
bytes of what was read since the last line end. -/
theorem foldl_push_char (pre buf : List Nat) (h : buf.length ≤ MSG_SIZE - 2) :
    pre.foldl push_char buf = (buf ++ pre).take (MSG_SIZE - 2) := by
  induction pre generalizing buf with
  | nil =>
    simp only [List.foldl_nil, List.append_nil]
    exact (List.take_of_length_le h).symm
  | cons ch rest ih =>
    have hlen : (push_char buf ch).length ≤ MSG_SIZE - 2 := by
      rw [push_char_eq buf ch h, List.length_take]
      exact Nat.min_le_left _ _
    rw [List.foldl_cons, ih _ hlen, push_char_eq buf ch h]
    by_cases hfull : buf.length = MSG_SIZE - 2
    · have h1 : (buf ++ [ch]).take (MSG_SIZE - 2) = buf := by
        rw [List.take_append_of_le_length (Nat.le_of_eq hfull.symm)]
        exact List.take_of_length_le (Nat.le_of_eq hfull)
      rw [h1, List.take_append_of_le_length (Nat.le_of_eq hfull.symm),
        List.take_append_of_le_length (Nat.le_of_eq hfull.symm)]
    · have hlt : (buf ++ [ch]).length ≤ MSG_SIZE - 2 := by
        simp only [List.length_append, List.length_singleton]
        omega
      rw [List.take_of_length_le hlt, List.append_assoc, List.singleton_append]

/-- Bytes other than `'\n'` only fill the buffer. -/
theorem handle_client_loop_bytes (user_id : Nat) (write_res : Nat → Nat → WriteResult)
    (pre rest buf : List Nat) (b : Broker) (h : 10 ∉ pre) :
    handle_client_loop user_id write_res (pre ++ rest) buf b
      = handle_client_loop user_id write_res rest (pre.foldl push_char buf) b := by
  induction pre generalizing buf with
  | nil => rfl
  | cons ch more ih =>
    have hch : ch ≠ 10 := fun heq => h (by simp [heq])
    have hmore : 10 ∉ more := fun hm => h (List.mem_cons_of_mem _ hm)
    simp only [List.cons_append, handle_client_loop, hch, if_false, List.foldl_cons]
    exact ih _ hmore

/-- The message built at line 141 is never empty and, when the buffer holds no
`'\n'`, does not end in one. -/
theorem line_message_last (sender buf : List Nat) (h : 10 ∉ buf) :
    sender ++ [58, 32] ++ buf ≠ [] ∧ (sender ++ [58, 32] ++ buf).getLast? ≠ some 10 := by
  constructor
  · simp
  · intro hlast
    rcases List.eq_nil_or_concat buf with hnil | ⟨front, c, hc⟩
    · subst hnil
      have : (sender ++ [58, 32] ++ ([] : List Nat)).getLast? = some 32 := by
        simp [List.getLast?_append]
      rw [this] at hlast
      cases hlast
    · rw [List.concat_eq_append] at hc
      subst hc
      have : (sender ++ [58, 32] ++ (front ++ [c])).getLast? = some c := by
        rw [← List.append_assoc, List.getLast?_append]
        simp
      rw [this] at hlast
      have hc10 : c = 10 := by simpa using hlast
      exact h (by simp [hc10])

/-- The handler always gets a result from the broadcaster, whatever the writes
do: the message holds at least `": "`. -/
theorem on_line_isSome (user_id : Nat) (write_res : Nat → WriteResult) (buf : List Nat)
    (b : Broker) : (on_line user_id write_res buf b).isSome = true := by
  have hne : c_str (b.shm.users user_id) ++ [58, 32] ++ buf ≠ [] := by simp
  unfold on_line
  rw [Option.isSome_map']
  exact broadcast_message_isSome _ _ _ _ _ hne

/-- What the handler does on a line end when every write returns: it reads the
name, and broadcasts `sender + ": " + buf` with one `'\n'` added. -/
theorem on_line_eq (user_id : Nat) (write_ok : Nat → Bool) (buf : List Nat) (b : Broker)
    (h : 10 ∉ buf) :
    on_line user_id (fun j => returned (write_ok j)) buf b
      = some ([Event.sem_wait, Event.sem_post] ++ ([Event.lock_fds] ++
          broadcast_loop (c_str (b.shm.users user_id) ++ [58, 32] ++ buf ++ [10])
            user_id b.shm b.s2c_fds (fun j => returned (write_ok j)) (List.range MAX_USERS) ++
          [Event.unlock_fds])) := by
  obtain ⟨hne, hlast⟩ := line_message_last (c_str (b.shm.users user_id)) buf h
  unfold on_line
  rw [broadcast_message_of_ne_nil _ _ _ _ _ hne, if_neg hlast]
  rfl

/-- The trace of a line end in which every write returns does not end the
process. -/
theorem killed_line_trace (send : List Nat) (sender_id : Nat) (shm : SharedData)
    (fds : Nat → Option Int) (write_ok : Nat → Bool) (l : List Nat) :
    killed ([Event.sem_wait, Event.sem_post] ++ ([Event.lock_fds] ++
        broadcast_loop send sender_id shm fds (fun j => returned (write_ok j)) l ++
        [Event.unlock_fds])) = false := by
  rw [killed_append, killed_append, killed_append, killed_broadcast_loop_returned]
  rfl

theorem not_mem_take {pre : List Nat} (n : Nat) (h : 10 ∉ pre) : 10 ∉ pre.take n :=
  fun hm => h (List.mem_of_mem_take hm)

/-- A complete line in the input: the loop hands the first `MSG_SIZE - 2` bytes
of the line to the broadcaster and, unless the process was terminated in the
broadcast, goes on with an empty buffer. -/
theorem handle_client_loop_newline (user_id : Nat) (write_res : Nat → Nat → WriteResult)
    (pre rest : List Nat) (b : Broker) (h : 10 ∉ pre) :
    handle_client_loop user_id write_res (pre ++ 10 :: rest) [] b
      = (on_line user_id (write_res 0) (pre.take (MSG_SIZE - 2)) b).bind fun es =>
          if killed es then some (b, es)
          else
            (handle_client_loop user_id (fun n => write_res (n + 1)) rest [] b).map
              fun r => (r.1, es ++ r.2) := by
  rw [handle_client_loop_bytes user_id write_res pre (10 :: rest) [] b h,
    foldl_push_char pre [] (Nat.zero_le _)]
  simp only [List.nil_append, handle_client_loop, if_true]

/-- A complete line in the input when every write returns. -/
theorem handle_client_loop_newline_returned (user_id : Nat) (write_ok : Nat → Nat → Bool)
    (pre rest : List Nat) (b : Broker) (h : 10 ∉ pre) :
    handle_client_loop user_id (fun n j => returned (write_ok n j)) (pre ++ 10 :: rest) [] b
      = (handle_client_loop user_id (fun n j => returned (write_ok (n + 1) j)) rest [] b).map
          fun r => (r.1,
            ([Event.sem_wait, Event.sem_post] ++ ([Event.lock_fds] ++
              broadcast_loop
                (c_str (b.shm.users user_id) ++ [58, 32] ++ pre.take (MSG_SIZE - 2) ++ [10])
                user_id b.shm b.s2c_fds (fun j => returned (write_ok 0 j))
                (List.range MAX_USERS) ++
              [Event.unlock_fds])) ++ r.2) := by
  rw [handle_client_loop_newline user_id _ pre rest b h,
    on_line_eq user_id (write_ok 0) _ b (not_mem_take _ h)]
  simp only [Option.some_bind, killed_line_trace, Bool.false_eq_true, if_false]

theorem writes_to_broadcast_loop (send : List Nat) (sender_id : Nat) (shm : SharedData)
    (fds : Nat → Option Int) (write_ok : Nat → Bool) (r : Nat) (l : List Nat) (hl : l.Nodup) :
    writes_to r (broadcast_loop send sender_id shm fds (fun j => returned (write_ok j)) l)
      = if r ∈ l ∧ shm.active_users r = 1 ∧ r ≠ sender_id ∧ (fds r).isSome = true
        then [send] else [] := by
  induction l with
  | nil => simp [broadcast_loop, writes_to]
  | cons i rest ih =>
    have hnot : i ∉ rest := (List.nodup_cons.mp hl).1
    have ih2 := ih (List.nodup_cons.mp hl).2
    rw [broadcast_loop_returned_cons]
    simp only [writes_to_append, ih2]
    by_cases hir : i = r
    · subst hir
      by_cases hact : shm.active_users i = 1
      · by_cases hs : i = sender_id
        · simp [hact, hs, writes_to]
        · cases hfd : fds i with
          | none => simp [hact, hs, hfd, writes_to]
          | some fd => simp [hact, hs, hfd, writes_to, hnot]
      · simp [hact, writes_to]
    · have hri : r ≠ i := fun h => hir h.symm
      have hmem : (r ∈ i :: rest) ↔ r ∈ rest := by simp [hri]
      simp only [hmem]
      by_cases hact : shm.active_users i = 1
      · by_cases hs : i = sender_id
        · simp [hact, hs, writes_to]
        · cases hfd : fds i with
          | none => simp [hact, hs, hfd, writes_to]
          | some fd => simp [hact, hs, hfd, writes_to, hir]
      · simp [hact, writes_to]

theorem bytes_colon_space : bytes ": " = [58, 32] := by decide

theorem bytes_newline : bytes "\n" = [10] := by decide

/-- All the writes of a handler whose writes return, for any inbound stream:
line by line, one call per recipient with the name, `": "`, the line cut to
`MSG_SIZE - 2` bytes and one `'\n'`. -/
theorem handle_client_loop_writes (user_id : Nat) (write_ok : Nat → Nat → Bool)
    (lines : List (List Nat)) (rest : List Nat) (b : Broker)
    (hlines : ∀ l ∈ lines, 10 ∉ l) (hrest : 10 ∉ rest) :
    (handle_client_loop user_id (fun n j => returned (write_ok n j))
        (stream_of_lines lines ++ rest) [] b).map (fun res => writes_of res.2)
      = some (line_writes (c_str (b.shm.users user_id))
          (recipients user_id b.shm b.s2c_fds) b.s2c_fds write_ok lines) := by
  induction lines generalizing write_ok with
  | nil =>
    have h0 := handle_client_loop_bytes user_id (fun n j => returned (write_ok n j))
      rest [] [] b hrest
    rw [List.append_nil] at h0
    simp only [stream_of_lines, List.nil_append, h0, handle_client_loop, Option.map_some',
      line_writes]
    simp [disconnect, writes_of]
  | cons l more ih =>
    have hl : 10 ∉ l := hlines l (List.mem_cons_self _ _)
    have hmore : ∀ x ∈ more, 10 ∉ x := fun x hx => hlines x (List.mem_cons_of_mem _ hx)
    have ih2 := ih (fun n => write_ok (n + 1)) hmore
    have hshape : stream_of_lines (l :: more) ++ rest
        = l ++ 10 :: (stream_of_lines more ++ rest) := by
      simp [stream_of_lines]
    rw [hshape, handle_client_loop_newline_returned user_id write_ok l _ b hl]
    cases hrun : handle_client_loop user_id (fun n j => returned (write_ok (n + 1) j))
        (stream_of_lines more ++ rest) [] b with
    | none => rw [hrun] at ih2; simp at ih2
    | some res =>
      rw [hrun] at ih2
      simp only [Option.map_some', Option.some.injEq] at ih2
      simp only [Option.map_some', writes_of_append, ih2, writes_of_broadcast_loop,
        line_writes, bytes_colon_space, bytes_newline]
      simp [writes_of, recipients]

/-- C4, as stated with the maximum line length of 255 bytes, fails: alice
(slot 0) sends a line of 255 bytes `'a'`; what is written for bob is not
"alice: ", the 255 bytes and `'\n'`. -/
theorem line_of_255_bytes_not_written_whole :
    ¬ ((handle_client_loop 0 (fun _ _ => returned true) (List.replicate 255 97 ++ [10]) []
          alice_bob.broker).map (fun r => writes_of r.2)
        = some [Event.write 1 6 (bytes "alice: " ++ List.replicate 255 97 ++ bytes "\n") true]) := by
  have key : ∀ pre : List Nat, pre.length = 255 → 10 ∉ pre →
      ¬ ((handle_client_loop 0 (fun _ _ => returned true) (pre ++ [10]) []
            alice_bob.broker).map (fun r => writes_of r.2)
          = some [Event.write 1 6 (bytes "alice: " ++ pre ++ bytes "\n") true]) := by
    intro pre hlen hpre h
    have hw := handle_client_loop_writes 0 (fun _ _ => true) [pre] [] alice_bob.broker
      (by simpa using hpre) (by simp)
    have hrec : recipients 0 alice_bob.broker.shm alice_bob.broker.s2c_fds = [1] := by decide
    have hfd : alice_bob.broker.s2c_fds 1 = some 6 := by decide
    simp only [stream_of_lines, List.append_nil, List.append_assoc] at hw
    rw [hw] at h
    simp only [line_writes, hrec, List.filterMap_cons, hfd, Option.map_some',
      List.filterMap_nil, List.append_nil, Option.some.injEq, List.cons.injEq,
      Event.write.injEq, and_true, true_and] at h
    have hl := congrArg List.length h
    have h1 : (c_str (alice_bob.broker.shm.users 0)).length = 5 := by decide
    have h2 : (bytes ": ").length = 2 := by decide
    have h3 : (bytes "\n").length = 1 := by decide
    have h4 : (bytes "alice: ").length = 7 := by decide
    simp only [List.length_append, List.length_take, hlen, h1, h2, h3, h4, MSG_SIZE] at hl
    omega
  exact key _ (List.length_replicate _ _)
    (fun hm => absurd (List.eq_of_mem_replicate hm) (by decide))

/-- C4, amended. For every sender slot `user_id`, whose display name is the C
string `n` in `users[user_id]`, and every inbound stream made of complete lines
without `'\n'` and an unterminated rest, the `write` calls of the handler (all
of them returning, the recipients being connected) are exactly: for each
complete line, in order, one call with the bytes `n ++ ": " ++ l ++ "\n"` for
every slot that is active, connected and not the sender, where `l` is the line
cut to `MSG_SIZE - 2 = 254` bytes (the line itself when it has at most 254
bytes); and no other. -/
theorem handler_line_fanout (user_id : Nat) (write_ok : Nat → Nat → Bool)
    (lines : List (List Nat)) (rest : List Nat) (b : Broker)
    (hlines : ∀ l ∈ lines, 10 ∉ l) (hrest : 10 ∉ rest) :
    (handle_client_loop user_id (fun n j => returned (write_ok n j))
        (stream_of_lines lines ++ rest) [] b).map (fun res => writes_of res.2)
        = some (line_writes (c_str (b.shm.users user_id))
            (recipients user_id b.shm b.s2c_fds) b.s2c_fds write_ok lines) ∧
      MSG_SIZE - 2 = 254 :=
  ⟨handle_client_loop_writes user_id write_ok lines rest b hlines hrest, rfl⟩

/-- Alice (slot 0) sends "hi" while bob (slot 1) is connected: the only write
is "alice: hi\n" on the descriptor of bob; nothing is written for slot 0. -/
theorem handler_line_fanout_witness :
    (handle_client_loop 0 (fun _ _ => returned true) (stream_of_lines [bytes "hi"] ++ []) []
        alice_bob.broker).map (fun r => writes_of r.2)
      = some [Event.write 1 6 (bytes "alice: hi\n") true] :=
  (handler_line_fanout 0 (fun _ _ => true) [bytes "hi"] [] alice_bob.broker
    (by decide) (by decide)).1.trans (by decide)

/-- C6. For every inbound byte stream of a sender, made of complete lines
`lines` (each followed by `'\n'`) and an incomplete rest, and every slot `r` that
is active, connected and not the sender while the handler runs, the byte
strings written for `r` are, in the order of the lines, one string
`name ++ ": " ++ line ++ "\n"` per line (the line cut to `MSG_SIZE - 2` bytes),
and nothing else: a line completed earlier is written earlier. The writes
return, with the byte count or with `-1` in any pattern. -/
theorem handler_fifo (user_id : Nat) (write_ok : Nat → Nat → Bool) (lines : List (List Nat))
    (rest : List Nat) (b : Broker) (r : Nat)
    (hlines : ∀ l ∈ lines, 10 ∉ l) (hrest : 10 ∉ rest)
    (hr : r ∈ recipients user_id b.shm b.s2c_fds) :
    (handle_client_loop user_id (fun n j => returned (write_ok n j))
        (stream_of_lines lines ++ rest) [] b).map (fun res => writes_to r res.2)
      = some (lines.map (fun l =>
          c_str (b.shm.users user_id) ++ bytes ": " ++ l.take (MSG_SIZE - 2) ++ bytes "\n")) := by
  obtain ⟨hlt, hact, hne, fd, hfd⟩ := (mem_recipients _ _ _ _).mp hr
  induction lines generalizing write_ok with
  | nil =>
    have h0 := handle_client_loop_bytes user_id (fun n j => returned (write_ok n j))
      rest [] [] b hrest
    rw [List.append_nil] at h0
    simp only [stream_of_lines, List.nil_append, h0, handle_client_loop, Option.map_some',
      List.map_nil]
    simp [disconnect, writes_to]
  | cons l more ih =>
    have hl : 10 ∉ l := hlines l (List.mem_cons_self _ _)
    have hmore : ∀ x ∈ more, 10 ∉ x := fun x hx => hlines x (List.mem_cons_of_mem _ hx)
    have ih2 := ih (fun n => write_ok (n + 1)) hmore
    have hshape : stream_of_lines (l :: more) ++ rest
        = l ++ 10 :: (stream_of_lines more ++ rest) := by
      simp [stream_of_lines]
    rw [hshape, handle_client_loop_newline_returned user_id write_ok l _ b hl]
    cases hrun : handle_client_loop user_id (fun n j => returned (write_ok (n + 1) j))
        (stream_of_lines more ++ rest) [] b with
    | none => rw [hrun] at ih2; simp at ih2
    | some res =>
      rw [hrun] at ih2
      simp only [Option.map_some', Option.some.injEq] at ih2
      simp only [Option.map_some', writes_to_append, ih2, List.map_cons,
        writes_to_broadcast_loop _ _ _ _ _ _ _ (List.nodup_range _), bytes_colon_space,
        bytes_newline]
      simp [writes_to, hlt, hact, hne, hfd]

/-- Alice (slot 0) sends the lines "a", "b", "c": bob (slot 1) is written
"alice: a\n", "alice: b\n", "alice: c\n" in that order. -/
theorem handler_fifo_witness :
    (handle_client_loop 0 (fun _ _ => returned true)
        (stream_of_lines [bytes "a", bytes "b", bytes "c"] ++ []) [] alice_bob.broker).map
        (fun res => writes_to 1 res.2)
      = some [bytes "alice: a\n", bytes "alice: b\n", bytes "alice: c\n"] :=
  (handler_fifo 0 (fun _ _ => true) [bytes "a", bytes "b", bytes "c"] [] alice_bob.broker 1
    (by decide) (by decide) (by decide)).trans (by decide)

/-- C7, as stated, fails: a line of 255 bytes is not handed over unchanged. With
alice in slot 0, the handler reading 255 bytes `'a'` and `'\n'` does not do what
`on_line` does with the 255 bytes. -/
theorem line_of_255_bytes_not_kept :
    ¬ (handle_client_loop 0 (fun _ _ => returned true) (List.replicate 255 97 ++ 10 :: []) []
          alice_bob.broker
        = (on_line 0 (fun _ => returned true) ((List.replicate 255 97).take 255)
            alice_bob.broker).bind
            fun es =>
              if killed es then some (alice_bob.broker, es)
              else
                (handle_client_loop 0 (fun _ _ => returned true) [] [] alice_bob.broker).map
                  fun r => (r.1, es ++ r.2)) := by
  have key : ∀ pre : List Nat, pre.length = 255 → 10 ∉ pre →
      ¬ (handle_client_loop 0 (fun _ _ => returned true) (pre ++ 10 :: []) []
            alice_bob.broker
        = (on_line 0 (fun _ => returned true) (pre.take 255) alice_bob.broker).bind
            fun es =>
              if killed es then some (alice_bob.broker, es)
              else
                (handle_client_loop 0 (fun _ _ => returned true) [] [] alice_bob.broker).map
                  fun r => (r.1, es ++ r.2)) := by
    intro pre hlen hpre h
    have hcond : 1 ∈ List.range MAX_USERS ∧ alice_bob.broker.shm.active_users 1 = 1 ∧ 1 ≠ 0 ∧
        (alice_bob.broker.s2c_fds 1).isSome = true := by decide
    rw [handle_client_loop_newline_returned 0 (fun _ _ => true) pre [] alice_bob.broker hpre,
      on_line_eq 0 (fun _ => true) _ alice_bob.broker (not_mem_take _ hpre)] at h
    have h2 := congrArg (Option.map (fun r => (writes_to 1 r.2).map List.length)) h
    simp only [Option.some_bind, handle_client_loop, Option.map_some', writes_to_append,
      killed_line_trace, Bool.false_eq_true, if_false,
      writes_to_broadcast_loop _ _ _ _ _ _ _ (List.nodup_range _), hcond, and_self, if_true]
      at h2
    simp [writes_to, disconnect, MSG_SIZE, hlen] at h2
  exact key _ (List.length_replicate _ _)
    (fun hm => absurd (List.eq_of_mem_replicate hm) (by decide))

/-- C7, amended. For every sequence `pre` of inbound bytes before a `'\n'`, the
line the handler hands to the broadcaster is `pre` cut to `MSG_SIZE - 2 = 254`
bytes (unchanged when it has at most 254 bytes, its first 254 bytes
otherwise), whatever the writes of the broadcast do; unless the process is
terminated in the broadcast, the handler then goes on with an empty buffer. -/
theorem line_handed_cut_to_254 (user_id : Nat) (write_res : Nat → Nat → WriteResult)
    (pre rest : List Nat) (b : Broker) (h : 10 ∉ pre) :
    handle_client_loop user_id write_res (pre ++ 10 :: rest) [] b
        = ((on_line user_id (write_res 0) (pre.take 254) b).bind fun es =>
            if killed es then some (b, es)
            else
              (handle_client_loop user_id (fun n => write_res (n + 1)) rest [] b).map
                fun r => (r.1, es ++ r.2)) ∧
      (on_line user_id (write_res 0) (pre.take 254) b).isSome = true ∧
      MSG_SIZE - 2 = 254 :=
  ⟨handle_client_loop_newline user_id write_res pre rest b h, on_line_isSome _ _ _ _, rfl⟩

/-- A line of 255 bytes `'a'` from alice reaches bob cut to 254 bytes. -/
theorem line_handed_cut_to_254_witness :
    handle_client_loop 0 (fun _ _ => returned true) (List.replicate 255 97 ++ 10 :: []) []
        alice_bob.broker
      = ((on_line 0 (fun _ => returned true) ((List.replicate 255 97).take 254)
          alice_bob.broker).bind
          fun es =>
            if killed es then some (alice_bob.broker, es)
            else
              (handle_client_loop 0 (fun _ _ => returned true) [] [] alice_bob.broker).map
                fun r => (r.1, es ++ r.2)) :=
  (line_handed_cut_to_254 0 (fun _ _ => returned true) (List.replicate 255 97) []
    alice_bob.broker
    (fun hm => absurd (List.eq_of_mem_replicate hm) (by decide))).1

/-- C1 fails on the code. Alice registers and gets slot 0; her name is in the
slot and the slot is not yet active. Bob registers next: he gets slot 0 too,
his name replaces the name of alice, and slot 1, the first slot with an empty
name, stays empty. -/
theorem client_reserve_hands_out_reserved_slot :
    (client_reserve shm_init (bytes "alice")).1 = some 0 ∧
      c_str (alice_reserved.users 0) = bytes "alice" ∧
      alice_reserved.active_users 0 = 0 ∧
      c_str (alice_reserved.users 1) = [] ∧
      (client_reserve alice_reserved (bytes "bob")).1 = some 0 ∧
      c_str ((client_reserve alice_reserved (bytes "bob")).2.users 0) = bytes "bob" ∧
      c_str ((client_reserve alice_reserved (bytes "bob")).2.users 1) = [] := by
  decide

/-- C2 fails on the code. Eleven clients register one after the other from the
start, with no poll of the server and no disconnect in between: every one of
them, the eleventh included, is given slot 0. -/
theorem eleven_reservations_succeed :
    reservations shm_init (List.replicate 11 (bytes "u")) = List.replicate 11 (some 0) := by
  decide

/-- C5 fails on the code. Bob is active in slot 1 while carol has registered in
slot 0 and is not yet active. The handler of bob sees the stream close: slot 1
is free (inactive, empty name, no descriptor) and is the lowest slot with an
empty name. The next registration does not return 1: it returns 0 and replaces
the name of carol. -/
theorem reservation_after_closure_skips_freed_slot :
    carol_pending.broker.shm.active_users 1 = 1 ∧
      c_str (carol_pending.broker.shm.users 0) = bytes "carol" ∧
      (step carol_pending (Action.closure 1)).broker.shm.active_users 1 = 0 ∧
      c_str ((step carol_pending (Action.closure 1)).broker.shm.users 1) = [] ∧
      (step carol_pending (Action.closure 1)).broker.s2c_fds 1 = none ∧
      c_str ((step carol_pending (Action.closure 1)).broker.shm.users 0) = bytes "carol" ∧
      (client_reserve (step carol_pending (Action.closure 1)).broker.shm (bytes "dave")).1
        = some 0 ∧
      c_str ((client_reserve (step carol_pending (Action.closure 1)).broker.shm
        (bytes "dave")).2.users 0) = bytes "dave" := by
  decide

/-- C8 fails on the code. Alice has registered and the server has activated
slot 0. Whichever `open` of the handler fails, the slot is left inactive but
with the name still in it, and the next poll of the server picks slot 0 again. -/
theorem handshake_failure_keeps_name :
    alice_polled.broker.shm.active_users 0 = 1 ∧
      (handle_client 0 none none (fun _ _ => returned true) [] alice_polled.broker).map
          (fun r => (r.1.shm.active_users 0, c_str (r.1.shm.users 0), (server_poll r.1.shm).1))
        = some (0, bytes "alice", some 0) ∧
      (handle_client 0 (some 3) none (fun _ _ => returned true) [] alice_polled.broker).map
          (fun r => (r.1.shm.active_users 0, c_str (r.1.shm.users 0), (server_poll r.1.shm).1))
        = some (0, bytes "alice", some 0) := by
  decide

/-! ## The registry invariant -/

theorem server_poll_some {shm : SharedData} {i : Nat} (h : (server_poll shm).1 = some i) :
    i < MAX_USERS ∧ shm.active_users i = 0 ∧ c_str (shm.users i) ≠ [] ∧
      (server_poll shm).2.1 = { shm with active_users := assign shm.active_users i 1 } := by
  unfold server_poll at h ⊢
  cases hfind : (List.range MAX_USERS).find?
      (fun i => shm.active_users i == 0 && decide (0 < (c_str (shm.users i)).length)) with
  | none => simp [hfind] at h
  | some k =>
    simp only [hfind, Option.some.injEq] at h
    subst h
    obtain ⟨h1, h2, _⟩ := find_range_some hfind
    simp only [Bool.and_eq_true, beq_iff_eq, decide_eq_true_eq] at h2
    exact ⟨h1, h2.1, List.ne_nil_of_length_pos h2.2, rfl⟩

theorem client_reserve_row_end (shm : SharedData) (username : List Nat) (i : Nat)
    (h : shm.users i (MSG_SIZE - 1) = 0) :
    (client_reserve shm username).2.users i (MSG_SIZE - 1) = 0 := by
  unfold client_reserve
  cases hfind : (List.range MAX_USERS).find? (fun i => shm.active_users i == 0) with
  | none => exact h
  | some k =>
    by_cases hik : i = k
    · simp [assign, hik]
    · simp [assign, hik, h]

theorem RegistryInv_init : RegistryInv sys_init := by
  refine ⟨fun i => Or.inl rfl, ?_, ?_, fun i => rfl⟩
  · intro i h
    have h0 : ((0 : Int) = 1) := h
    exact absurd h0 (by decide)
  · intro i h
    exact absurd rfl h

theorem RegistryInv_step (s : Sys) (a : Action) (h : RegistryInv s) : RegistryInv (step s a) := by
  obtain ⟨h01, hname, hthread, hend⟩ := h
  cases a with
  | reserve username =>
    refine ⟨?_, ?_, ?_, ?_⟩
    · intro i
      simp only [step, client_reserve_active]
      exact h01 i
    · intro i hact
      simp only [step, client_reserve_active] at hact ⊢
      have hne : s.broker.shm.active_users i ≠ 0 := by
        rw [hact]
        decide
      rw [client_reserve_users_of_active _ _ _ hne]
      exact hname i hact
    · intro i hph
      simp only [step, client_reserve_active] at hph ⊢
      exact hthread i hph
    · intro i
      exact client_reserve_row_end _ _ _ (hend i)
  | poll =>
    cases hpoll : (server_poll s.broker.shm).1 with
    | none =>
      simp only [step, hpoll]
      exact ⟨h01, hname, hthread, hend⟩
    | some k =>
      obtain ⟨_, hk0, hkname, hshm⟩ := server_poll_some hpoll
      have hk0name : s.broker.shm.users k 0 ≠ 0 := fun h0 =>
        hkname ((c_str_eq_nil_iff _).mpr h0)
      simp only [step, hpoll, hshm]
      refine ⟨?_, ?_, ?_, hend⟩
      · intro i
        by_cases hik : i = k
        · right
          simp [assign, hik]
        · simp only [assign, hik, if_false]
          exact h01 i
      · intro i hact
        by_cases hik : i = k
        · rw [hik]
          exact hk0name
        · simp only [assign, hik, if_false] at hact
          exact hname i hact
      · intro i hph
        by_cases hik : i = k
        · simp [assign, hik]
        · simp only [assign, hik, if_false] at hph ⊢
          exact hthread i hph
  | handshake k in_fd out_fd =>
    by_cases hph : s.handler k = Phase.connecting
    · have hfail : RegistryInv
          { broker := (handshake_failed k s.broker).1, handler := assign s.handler k Phase.idle } := by
        refine ⟨?_, ?_, ?_, hend⟩
        · intro i
          by_cases hik : i = k
          · left
            simp [handshake_failed, assign, hik]
          · simp only [handshake_failed, assign, hik, if_false]
            exact h01 i
        · intro i hact
          by_cases hik : i = k
          · simp [handshake_failed, assign, hik] at hact
          · simp only [handshake_failed, assign, hik, if_false] at hact ⊢
            exact hname i hact
        · intro i hp
          by_cases hik : i = k
          · simp [assign, hik] at hp
          · simp only [handshake_failed, assign, hik, if_false] at hp ⊢
            exact hthread i hp
      cases in_fd with
      | none => simpa only [step, hph, if_true] using hfail
      | some fd_in =>
        cases out_fd with
        | none => simpa only [step, hph, if_true] using hfail
        | some fd =>
          simp only [step, hph, if_true]
          refine ⟨h01, hname, ?_, hend⟩
          intro i hp
          by_cases hik : i = k
          · rw [hik]
            exact hthread k (by rw [hph]; decide)
          · simp only [assign, hik, if_false] at hp
            exact hthread i hp
    · simp only [step, hph, if_false]
      exact ⟨h01, hname, hthread, hend⟩
  | closure k =>
    by_cases hph : s.handler k = Phase.running
    · simp only [step, hph, if_true]
      refine ⟨?_, ?_, ?_, ?_⟩
      · intro i
        by_cases hik : i = k
        · left
          simp [disconnect, assign, hik]
        · simp only [disconnect, assign, hik, if_false]
          exact h01 i
      · intro i hact
        by_cases hik : i = k
        · simp [disconnect, assign, hik] at hact
        · simp only [disconnect, assign, hik, if_false] at hact ⊢
          exact hname i hact
      · intro i hp
        by_cases hik : i = k
        · simp [assign, hik] at hp
        · simp only [disconnect, assign, hik, if_false] at hp ⊢
          exact hthread i hp
      · intro i
        by_cases hik : i = k
        · have h255 : MSG_SIZE - 1 ≠ 0 := by decide
          simp only [disconnect, assign, hik, if_true, h255, if_false]
          exact hend k
        · simp only [disconnect, assign, hik, if_false]
          exact hend i
    · simp only [step, hph, if_false]
      exact ⟨h01, hname, hthread, hend⟩

theorem foldl_step_inv (acts : List Action) (s : Sys) (h : RegistryInv s) :
    RegistryInv (acts.foldl step s) := by
  induction acts generalizing s with
  | nil => exact h
  | cons a rest ih => exact ih _ (RegistryInv_step s a h)

theorem RegistryInv_run (acts : List Action) : RegistryInv (run acts) :=
  foldl_step_inv acts sys_init RegistryInv_init

/-- Every row of a reachable state ends in `'\0'`, so `c_str` reads the C string
that `strlen` and the `std::string` conversion see. -/
theorem Reachable_row_terminated (s : Sys) (h : Reachable s) (i : Nat) :
    s.broker.shm.users i (MSG_SIZE - 1) = 0 := by
  obtain ⟨acts, rfl⟩ := h
  exact (RegistryInv_run acts).2.2.2 i

/-- C10. In every state reached from the start by registrations, polls of the
server, handshakes (failed or not) and closures, in any order: every active
slot has a non-empty name; a registration does not touch the row of an active
slot; and the slot of a handler in its read loop has a non-empty name, so the
sender name read at line 138 is never empty. -/
theorem active_slot_has_name (acts : List Action) :
    (∀ i, (run acts).broker.shm.active_users i = 1 →
        c_str ((run acts).broker.shm.users i) ≠ []) ∧
      (∀ username i, (run acts).broker.shm.active_users i = 1 →
        (client_reserve (run acts).broker.shm username).2.users i
          = (run acts).broker.shm.users i) ∧
      (∀ i, (run acts).handler i = Phase.running →
        c_str ((run acts).broker.shm.users i) ≠ []) := by
  obtain ⟨_, hname, hthread, _⟩ := RegistryInv_run acts
  refine ⟨?_, ?_, ?_⟩
  · intro i hact hnil
    exact hname i hact ((c_str_eq_nil_iff _).mp hnil)
  · intro username i hact
    apply client_reserve_users_of_active
    rw [hact]
    decide
  · intro i hrun hnil
    have hact : (run acts).broker.shm.active_users i = 1 :=
      hthread i (by rw [hrun]; decide)
    exact hname i hact ((c_str_eq_nil_iff _).mp hnil)

/-- With alice and bob connected, the handler of slot 0 is in its read loop and
the name of slot 0 is not empty. -/
theorem active_slot_has_name_witness :
    alice_bob.handler 0 = Phase.running ∧ c_str (alice_bob.broker.shm.users 0) ≠ [] :=
  ⟨by decide,
    (active_slot_has_name
      [Action.reserve (bytes "alice"), Action.poll, Action.handshake 0 (some 3) (some 4),
       Action.reserve (bytes "bob"), Action.poll, Action.handshake 1 (some 5) (some 6)]).2.2 0
      (by decide)⟩

/-! ## Lock discipline -/

theorem fds_before_sem_broadcast_loop (send : List Nat) (sender_id : Nat) (shm : SharedData)
    (fds : Nat → Option Int) (write_ok : Nat → Bool) (l : List Nat) (rest : List Event) :
    fds_before_sem false true
        (broadcast_loop send sender_id shm fds (fun j => returned (write_ok j)) l ++ rest)
      = fds_before_sem false true rest := by
  induction l with
  | nil => rfl
  | cons i more ih =>
    rw [broadcast_loop_returned_cons]
    simp only [List.append_assoc, List.cons_append, List.nil_append, fds_before_sem]
    split
    · simpa using ih
    · split
      · simpa using ih
      · simpa [fds_before_sem] using ih

theorem all_under_fds_broadcast_loop (send : List Nat) (sender_id : Nat) (shm : SharedData)
    (fds : Nat → Option Int) (write_ok : Nat → Bool) (l : List Nat) (rest : List Event) :
    all_under_fds true
        (broadcast_loop send sender_id shm fds (fun j => returned (write_ok j)) l ++ rest)
      = all_under_fds true rest := by
  induction l with
  | nil => rfl
  | cons i more ih =>
    rw [broadcast_loop_returned_cons]
    simp only [List.append_assoc, List.cons_append, List.nil_append, all_under_fds,
      Bool.true_and]
    split
    · simpa using ih
    · split
      · simpa using ih
      · simpa [all_under_fds] using ih

theorem fds_before_sem_broadcast (send : List Nat) (sender_id : Nat) (shm : SharedData)
    (fds : Nat → Option Int) (write_ok : Nat → Bool) (l : List Nat) (rest : List Event) :
    fds_before_sem false false
        ([Event.lock_fds] ++
          broadcast_loop send sender_id shm fds (fun j => returned (write_ok j)) l
          ++ [Event.unlock_fds] ++ rest)
      = fds_before_sem false false rest := by
  simp only [List.append_assoc, List.cons_append, List.nil_append]
  show fds_before_sem false true
      (broadcast_loop send sender_id shm fds (fun j => returned (write_ok j)) l
        ++ Event.unlock_fds :: rest) = _
  rw [fds_before_sem_broadcast_loop]
  rfl

theorem all_under_fds_broadcast (send : List Nat) (sender_id : Nat) (shm : SharedData)
    (fds : Nat → Option Int) (write_ok : Nat → Bool) (l : List Nat) :
    all_under_fds false
        ([Event.lock_fds] ++
          broadcast_loop send sender_id shm fds (fun j => returned (write_ok j)) l
          ++ [Event.unlock_fds]) = true := by
  simp only [List.append_assoc, List.cons_append, List.nil_append]
  show all_under_fds true
      (broadcast_loop send sender_id shm fds (fun j => returned (write_ok j)) l
        ++ [Event.unlock_fds]) = _
  rw [all_under_fds_broadcast_loop]
  rfl

/-- The trace of a line end when every write returns. -/
theorem on_line_some (user_id : Nat) (write_ok : Nat → Bool) (buf : List Nat) (b : Broker) :
    ∃ send l, on_line user_id (fun j => returned (write_ok j)) buf b
      = some ([Event.sem_wait, Event.sem_post] ++ ([Event.lock_fds] ++
          broadcast_loop send user_id b.shm b.s2c_fds (fun j => returned (write_ok j)) l ++
          [Event.unlock_fds])) := by
  have hne : c_str (b.shm.users user_id) ++ [58, 32] ++ buf ≠ [] := by simp
  unfold on_line
  rw [broadcast_message_of_ne_nil _ _ _ _ _ hne]
  exact ⟨_, _, rfl⟩

/-- When every write returns, the read loop ends with a result (the input is
finite), its final state is the one `disconnect` leaves, and its trace keeps
the lock order. -/
theorem handle_client_loop_total (user_id : Nat) (write_ok : Nat → Nat → Bool)
    (input buf : List Nat) (b : Broker) :
    ∃ r, handle_client_loop user_id (fun n j => returned (write_ok n j)) input buf b = some r ∧
      r.1 = (disconnect user_id b).1 ∧
      ∀ rest, fds_before_sem false false (r.2 ++ rest) = fds_before_sem false false rest := by
  induction input generalizing write_ok buf with
  | nil =>
    refine ⟨disconnect user_id b, rfl, rfl, fun rest => ?_⟩
    simp [disconnect, fds_before_sem]
  | cons ch more ih =>
    by_cases hch : ch = 10
    · obtain ⟨send, l, hsend⟩ := on_line_some user_id (write_ok 0) buf b
      obtain ⟨r, hr, hstate, hlocks⟩ := ih (fun n => write_ok (n + 1)) []
      refine ⟨(r.1, ([Event.sem_wait, Event.sem_post] ++ ([Event.lock_fds] ++
          broadcast_loop send user_id b.shm b.s2c_fds (fun j => returned (write_ok 0 j)) l ++
          [Event.unlock_fds])) ++ r.2), ?_, hstate, fun rest => ?_⟩
      · simp only [handle_client_loop, hch, if_true, hsend, Option.some_bind,
          killed_line_trace, Bool.false_eq_true, if_false]
        rw [hr]
        rfl
      · have hb := fds_before_sem_broadcast send user_id b.shm b.s2c_fds (write_ok 0) l
          (r.2 ++ rest)
        rw [hlocks rest] at hb
        simp only [List.append_assoc, List.cons_append, List.nil_append] at hb ⊢
        exact hb
    · simp only [handle_client_loop, hch, if_false]
      exact ih write_ok (push_char buf ch)

/-- C9, as stated, fails: in `broadcast_message` the registry semaphore is
acquired while `fds_mutex` is held, and `fds_mutex` is held across the registry
reads and the write. Here alice (slot 0) broadcasts to bob. -/
theorem broadcast_message_nests_locks :
    (broadcast_message (bytes "alice: hi") 0 alice_bob.broker.shm alice_bob.broker.s2c_fds
        (fun _ => returned true)).map (never_nested false false) = some false ∧
      (broadcast_message (bytes "alice: hi") 0 alice_bob.broker.shm alice_bob.broker.s2c_fds
        (fun _ => returned true)).map (fds_lookup_only false) = some false := by
  decide

/-- C9, amended. The poll of the server, both outcomes of the handshake and the
teardown of a handler never hold one lock while acquiring the other.
`broadcast_message` holds `fds_mutex` for the whole loop: every registry read
and every write happens under it. In `broadcast_message` and in the whole of
`handle_client` the order is fixed: `fds_mutex` is never acquired while the
semaphore is held, the semaphore is never held during a write, and both locks
are free at the end. The writes return, with the byte count or with `-1` in
any pattern. -/
theorem lock_order (shm : SharedData) (b : Broker) (user_id sender_id : Nat) (fd : Int)
    (message : List Nat) (fds : Nat → Option Int) (write_ok : Nat → Bool)
    (in_fd out_fd : Option Int) (writes_ok : Nat → Nat → Bool) (input : List Nat)
    (h : message ≠ []) :
    never_nested false false (server_poll shm).2.2 = true ∧
      never_nested false false (handshake_failed user_id b).2 = true ∧
      never_nested false false (store_fd user_id fd b).2 = true ∧
      never_nested false false (disconnect user_id b).2 = true ∧
      (∃ evs, broadcast_message message sender_id shm fds (fun j => returned (write_ok j))
          = some evs ∧
        fds_before_sem false false evs = true ∧ all_under_fds false evs = true) ∧
      (∃ r, handle_client user_id in_fd out_fd (fun n j => returned (writes_ok n j)) input b
          = some r ∧
        fds_before_sem false false r.2 = true) := by
  refine ⟨?_, rfl, rfl, rfl, ?_, ?_⟩
  · unfold server_poll
    split <;> rfl
  · refine ⟨_, broadcast_message_of_ne_nil message sender_id shm fds write_ok h, ?_, ?_⟩
    · have hb := fds_before_sem_broadcast
        (if message.getLast? = some 10 then message else message ++ [10])
        sender_id shm fds write_ok (List.range MAX_USERS) []
      rw [List.append_nil] at hb
      exact hb
    · exact all_under_fds_broadcast _ _ _ _ _ _
  · have hfail : fds_before_sem false false (handshake_failed user_id b).2 = true := rfl
    cases in_fd with
    | none => exact ⟨_, rfl, hfail⟩
    | some fd_in =>
      cases out_fd with
      | none => exact ⟨_, rfl, hfail⟩
      | some fd_out =>
        obtain ⟨r, hr, _, hlocks⟩ :=
          handle_client_loop_total user_id writes_ok input [] (store_fd user_id fd_out b).1
        refine ⟨(r.1, (store_fd user_id fd_out b).2 ++ r.2), ?_, ?_⟩
        · simp only [handle_client, hr, Option.map_some']
        · have := hlocks []
          simp only [List.append_nil] at this
          simp [store_fd, fds_before_sem, this]

/-- The lock order on a run of the handler of alice that reads "hi\n". -/
theorem lock_order_witness :
    (∃ evs, broadcast_message (bytes "alice: hi") 0 alice_bob.broker.shm
        alice_bob.broker.s2c_fds (fun _ => returned true) = some evs ∧
        fds_before_sem false false evs = true ∧ all_under_fds false evs = true) ∧
      (∃ r, handle_client 0 (some 3) (some 4) (fun _ _ => returned true) (bytes "hi\n")
        alice_bob.broker = some r ∧ fds_before_sem false false r.2 = true) :=
  (lock_order alice_bob.broker.shm alice_bob.broker 0 0 4 (bytes "alice: hi")
    alice_bob.broker.s2c_fds (fun _ => true) (some 3) (some 4) (fun _ _ => true)
    (bytes "hi\n") (by decide)).2.2.2.2

end Chat
